import Mathlib

/-!
Verification of the Cheesecake scoring engine
(src/cheesecake/cheesecake_index.py): the Index tree (ScoreNode),
the FilesIndex rule matcher, the report percentage computation and the
overall index computation.  Python strings are modelled as Lean strings
(ASCII), Python ints as Int, Python None via Option, exceptions via
Except, and the IEEE binary64 float arithmetic of the percentage
computation exactly by round-to-nearest-even over the rationals.
-/

namespace Cheesecake

/-! ### Python string primitives used by FilesIndex.match_filename -/

/-- Python str.lower (ASCII). -/
def pyLower (s : String) : String := String.mk (s.toList.map Char.toLower)

/-- Python str.upper (ASCII). -/
def pyUpper (s : String) : String := String.mk (s.toList.map Char.toUpper)

/-- Python 2 str.capitalize: first character uppercased, the rest lowercased. -/
def pyCapitalize (s : String) : String :=
  match s.toList with
  | [] => ""
  | c :: cs => String.mk (c.toUpper :: cs.map Char.toLower)

/-- Index of the last occurrence of a character in a list, if any
(Python str.rfind restricted to found/not-found). -/
def lastIndexOf : List Char → Char → Option Nat
  | [], _ => none
  | x :: xs, c =>
    match lastIndexOf xs c with
    | some i => some (i + 1)
    | none => if x = c then some 0 else none

/-- Python 2 os.path.splitext (posixpath): split at the last dot, unless the
last dot comes at or before the last path separator. -/
def splitext (p : String) : String × String :=
  let cs := p.toList
  match lastIndexOf cs '.' with
  | none => (p, "")
  | some i =>
    match lastIndexOf cs '/' with
    | some j =>
      if i ≤ j then (p, "")
      else (String.mk (cs.take i), String.mk (cs.drop i))
    | none => (String.mk (cs.take i), String.mk (cs.drop i))

/-- The inner helper `equal` of FilesIndex.match_filename: candidate `x`
matches rule string `y` when the root of `x` is the lower/UPPER/Capitalized
form of the (lowercased) root of `y` and the extension of `x` is the
lower/UPPER form of the extension of `y`. -/
def equalName (x y : String) : Bool :=
  let xr := (splitext x).1
  let xe := (splitext x).2
  let yl := pyLower y
  let yr := (splitext yl).1
  let ye := (splitext yl).2
  (xr == pyLower yr || xr == pyUpper yr || xr == pyCapitalize yr)
    && (xe == pyLower ye || xe == pyUpper ye)

/-! ### Rules -/

/-- A file-naming rule: either a plain string (Python str entries of the
rule tables) or a OneOf with a list of possibilities (which in the source
may themselves be strings or OneOf objects). -/
inductive Rule where
  | lit (s : String)
  | oneOf (ps : List Rule)

mutual

/-- Structural equality test on rules.  Python compares the string entries
of _used_rules by value and OneOf objects by identity; no two structurally
equal OneOf objects coexist in any rule table of the source, so structural
equality is a faithful model of both. -/
def Rule.beq : Rule → Rule → Bool
  | .lit a, .lit b => a == b
  | .oneOf as, .oneOf bs => Rule.beqList as bs
  | .lit _, .oneOf _ => false
  | .oneOf _, .lit _ => false
termination_by structural r => r

/-- Pointwise Rule.beq on lists. -/
def Rule.beqList : List Rule → List Rule → Bool
  | [], [] => true
  | a :: as, b :: bs => Rule.beq a b && Rule.beqList as bs
  | [], _ :: _ => false
  | _ :: _, [] => false
termination_by structural rs => rs

end

mutual

theorem Rule.beq_iff : ∀ a b : Rule, Rule.beq a b = true ↔ a = b
  | .lit a, .lit b => by simp [Rule.beq]
  | .oneOf as, .oneOf bs => by
      simp only [Rule.beq, Rule.oneOf.injEq]
      exact Rule.beqList_iff as bs
  | .lit _, .oneOf _ => by simp [Rule.beq]
  | .oneOf _, .lit _ => by simp [Rule.beq]

theorem Rule.beqList_iff : ∀ as bs : List Rule, Rule.beqList as bs = true ↔ as = bs
  | [], [] => by simp [Rule.beqList]
  | a :: as, b :: bs => by
      simp only [Rule.beqList, Bool.and_eq_true, List.cons.injEq]
      exact and_congr (Rule.beq_iff a b) (Rule.beqList_iff as bs)
  | [], _ :: _ => by simp [Rule.beqList]
  | _ :: _, [] => by simp [Rule.beqList]

end

instance : DecidableEq Rule :=
  fun a b => decidable_of_iff _ (Rule.beq_iff a b)

/-- WithOptionalExt from the source: OneOf of the bare name and the name
joined with each extension. -/
def WithOptionalExt (name : String) (extensions : List String) : Rule :=
  .oneOf (.lit name :: extensions.map (fun x => .lit (name ++ "." ++ x)))

/-- Doc from the source: WithOptionalExt with html/txt/rst. -/
def Doc (name : String) : Rule :=
  WithOptionalExt name ["html", "txt", "rst"]

/-! ### FilesIndex rule matching

The source keeps the consumed rules in the mutable instance list
_used_rules; here that list is passed in and returned explicitly.
Appends happen exactly where the source appends. -/

mutual

/-- FilesIndex.match_filename: a rule already in the used list never
matches; a string rule matches by equalName and is appended to the used
list; a OneOf matches when one of its possibilities matches (the
recursive call appends the winning possibility) and then the OneOf
itself is appended as well. -/
def match_filename (name : String) (rule : Rule) (used : List Rule) :
    Bool × List Rule :=
  if used.contains rule then (false, used)
  else
    match rule with
    | .lit s => if equalName name s then (true, used ++ [.lit s]) else (false, used)
    | .oneOf ps => matchPossibilities name ps (.oneOf ps) used
termination_by structural rule

/-- The for-loop over a OneOf's possibilities inside match_filename:
on the first matching possibility the enclosing rule `self` is appended
and True is returned. -/
def matchPossibilities (name : String) (ps : List Rule) (self : Rule)
    (used : List Rule) : Bool × List Rule :=
  match ps with
  | [] => (false, used)
  | p :: rest =>
    let r := match_filename name p used
    if r.1 then (true, r.2 ++ [self])
    else matchPossibilities name rest self r.2
termination_by structural ps

end

/-- FilesIndex.get_score: first rule of the table (in table order) that
matches the name wins and its weight is returned; 0 when none matches.
The used list is threaded through exactly as the source mutates it. -/
def get_score (name : String) (specs : List (Rule × Int)) (used : List Rule) :
    Int × List Rule :=
  match specs with
  | [] => (0, used)
  | (entry, value) :: rest =>
    let r := match_filename name entry used
    if r.1 then (value, r.2) else get_score name rest r.2

/-- FilesIndex.get_not_used: the rules that are not in the used list. -/
def get_not_used (files_rules : List Rule) (used : List Rule) : List Rule :=
  files_rules.filter (fun rule => ¬ rule ∈ used)

/-- FilesIndex._compute_from_rules.  A candidate is a pair of its base
name (os.path.basename is applied by the caller in the source) and its
is_empty flag (a filesystem probe in the source, supplied here as data).
Returns (files_count, value, used). -/
def compute_from_rules (candidates : List (String × Bool))
    (files_rules : List (Rule × Int)) (used : List Rule) :
    Nat × Int × List Rule :=
  match candidates with
  | [] => (0, 0, used)
  | (name, isEmp) :: rest =>
    if isEmp then compute_from_rules rest files_rules used
    else
      let r := get_score name files_rules used
      let rec' := compute_from_rules rest files_rules r.2
      if r.1 ≠ 0 then (rec'.1 + 1, r.1 + rec'.2.1, rec'.2.2)
      else (rec'.1, rec'.2.1, rec'.2.2)

/-! ### Instrumented matching run

get_score_entry is get_score instrumented to report which table entry
(by position, modelling rule identity) matched; run_match folds it over
the candidates and records the matched (position, weight) events.  Both
are proved equivalent to the plain definitions below. -/

/-- get_score, additionally reporting the index of the matching entry. -/
def get_score_entry (name : String) (specs : List (Rule × Int)) (i : Nat)
    (used : List Rule) : Option (Nat × Int) × List Rule :=
  match specs with
  | [] => (none, used)
  | (entry, value) :: rest =>
    let r := match_filename name entry used
    if r.1 then (some (i, value), r.2)
    else get_score_entry name rest (i + 1) r.2

/-- The matching run over all candidates, recording for each non-empty
candidate the matched table entry (position and weight), if any. -/
def run_match (candidates : List (String × Bool))
    (files_rules : List (Rule × Int)) (used : List Rule) :
    List (Nat × Int) × List Rule :=
  match candidates with
  | [] => ([], used)
  | (name, isEmp) :: rest =>
    if isEmp then run_match rest files_rules used
    else
      let r := get_score_entry name files_rules 0 used
      let rec' := run_match rest files_rules r.2
      match r.1 with
      | some ev => (ev :: rec'.1, rec'.2)
      | none => rec'

/-! ### The Index tree (ScoreNode)

An Index either has subindices (interior) or computes a value from
attributes of the Cheesecake instance (leaf).  The Cheesecake instance
is modelled as an attribute bag; getattr with default None becomes a
total function into Option Value. -/

/-- A value stored on the Cheesecake context object. -/
inductive Value where
  | int (n : Int)
  | bool (b : Bool)
  | str (s : String)
  | list (vs : List Value)

/-- The Cheesecake instance as seen by the engine: a bag of attributes.
An absent attribute is none (getattr default None in get_attributes). -/
def Ctx : Type := String → Option Value

/-- Python truthiness of an attribute value; None is falsy. -/
def pyTruthy : Option Value → Bool
  | none => false
  | some (.int n) => n != 0
  | some (.bool b) => b
  | some (.str s) => s != ""
  | some (.list vs) => !vs.isEmpty

/-- get_attributes from the source: query the object for each name; a
name the object does not have gets the default value None (none). -/
def get_attributes (ctx : Ctx) (names : List String) : List (String × Option Value) :=
  names.map (fun n => (n, ctx n))

/-- Reading one keyword argument out of the attribute dictionary. -/
def lookupAttr (n : String) (attrs : List (String × Option Value)) : Option Value :=
  match attrs.lookup n with
  | some v => v
  | none => none

/-- A fault raised by a leaf's compute step.  The source defines no
MissingInput exception: the only faults are ordinary exceptions raised
inside compute, all silenced alike by the parent's iteration. -/
inductive Fault where
  | computationFault (msg : String)
deriving DecidableEq

/-- The two gating phases. -/
inductive Phase where
  | beforeDownload
  | afterDownload

/-- The per-class data of a leaf index: its name (set from the class
name by the metaclass unless given), its max_value class constant, the
argument names of its compute method (= _compute_arguments, the
requirement names), the compute body, and the two decide predicates
(defaulting to always-true).  The compute body receives the dictionary
built by get_attributes, exactly as compute(**get_attributes(...)). -/
structure LeafSpec where
  name : String
  maxVal : Int
  reqs : List String
  computeFn : List (String × Option Value) → Except Fault Int
  decideBefore : Ctx → Bool
  decideAfter : Ctx → Bool

/-- An Index object: a leaf (no subindices) carrying its spec and its
current value, or an interior node with its name, its own compute
argument names, its current value and its current subindices. -/
inductive Node where
  | leaf (s : LeafSpec) (value : Int)
  | inner (name : String) (reqs : List String) (value : Int) (children : List Node)

/-- The value attribute of a node. -/
def nodeValue : Node → Int
  | .leaf _ v => v
  | .inner _ _ v _ => v

mutual

/-- Index.max_value: the class constant for a leaf; for an interior node
the property _get_max_value, the sum over the current subindices
(0 when there are none). -/
def maxValue : Node → Int
  | .leaf s _ => s.maxVal
  | .inner _ _ _ cs => maxValueList cs
termination_by structural t => t

/-- Sum of max_value over a list of subindices. -/
def maxValueList : List Node → Int
  | [] => 0
  | c :: cs => maxValue c + maxValueList cs
termination_by structural cs => cs

end

mutual

/-- Index._get_requirements: a leaf returns its own compute argument
names; an interior node its own argument names followed by the
concatenation of the children's requirements. -/
def requirementsOf : Node → List String
  | .leaf s _ => s.reqs
  | .inner _ rq _ cs => rq ++ requirementsList cs
termination_by structural t => t

/-- Concatenated requirements of a list of subindices. -/
def requirementsList : List Node → List String
  | [] => []
  | c :: cs => requirementsOf c ++ requirementsList cs
termination_by structural cs => cs

end

mutual

/-- The names of all nodes of a tree, in preorder. -/
def allNames : Node → List String
  | .leaf s _ => [s.name]
  | .inner n _ _ cs => n :: allNamesList cs
termination_by structural t => t

/-- Names of all nodes of a list of trees. -/
def allNamesList : List Node → List String
  | [] => []
  | c :: cs => allNames c ++ allNamesList cs
termination_by structural cs => cs

end

mutual

/-- The max_value class constants of all leaves of a tree, in preorder. -/
def leafMaxVals : Node → List Int
  | .leaf s _ => [s.maxVal]
  | .inner _ _ _ cs => leafMaxValsList cs
termination_by structural t => t

/-- Leaf max_value constants of a list of trees. -/
def leafMaxValsList : List Node → List Int
  | [] => []
  | c :: cs => leafMaxVals c ++ leafMaxValsList cs
termination_by structural cs => cs

end

mutual

/-- Index.decide for one phase: a leaf evaluates its phase predicate
(default True); an interior node with subindices gates every child,
permanently dropping each child whose own decide is falsy, and is itself
truthy iff some child remains.  An interior node whose subindices list
is already empty skips the loop and is truthy (the source returns True
before reaching the loop). -/
def decideNode (t : Node) (ph : Phase) (ctx : Ctx) : Node × Bool :=
  match t with
  | .leaf s v =>
    (.leaf s v,
      match ph with
      | .beforeDownload => s.decideBefore ctx
      | .afterDownload => s.decideAfter ctx)
  | .inner n rq v cs =>
    match cs with
    | [] => (.inner n rq v [], true)
    | _ :: _ =>
      let kept := decideChildren cs ph ctx
      (.inner n rq v kept, !kept.isEmpty)
termination_by structural t

/-- The removal loop of Index.decide over the subindices. -/
def decideChildren (cs : List Node) (ph : Phase) (ctx : Ctx) : List Node :=
  match cs with
  | [] => []
  | c :: rest =>
    let r := decideNode c ph ctx
    if r.2 then r.1 :: decideChildren rest ph ctx
    else decideChildren rest ph ctx
termination_by structural cs

end

mutual

/-- Index.compute_with: a leaf calls compute on the attributes extracted
by get_attributes (its result or its fault is the leaf's); an interior
node runs the default compute, the sum over _iter_indices, which
computes every subindex in order, silences any fault and permanently
removes the faulting subindex, and never faults itself. -/
def computeWith (t : Node) (ctx : Ctx) : Except Fault (Node × Int) :=
  match t with
  | .leaf s _ =>
    match s.computeFn (get_attributes ctx s.reqs) with
    | .ok v => .ok (.leaf s v, v)
    | .error e => .error e
  | .inner n rq _ cs =>
    let r := computeChildren cs ctx
    .ok (.inner n rq r.2 r.1, r.2)
termination_by structural t

/-- Index._iter_indices consumed by sum: each subindex is computed in
order against the same Cheesecake instance; a faulting subindex is
removed from the list and contributes nothing. -/
def computeChildren (cs : List Node) (ctx : Ctx) : List Node × Int :=
  match cs with
  | [] => ([], 0)
  | c :: rest =>
    let r := computeChildren rest ctx
    match computeWith c ctx with
    | .ok p => (p.1 :: r.1, p.2 + r.2)
    | .error _ => r
termination_by structural cs

end

/-! ### Reporting -/

/-! #### IEEE binary64 arithmetic

Index._print_info_many evaluates float(value) / float(max_value) * 100
in CPython doubles, so each intermediate result is rounded to the
nearest binary64 value (ties to even).  roundDouble models that
rounding exactly over the rationals; ratDiv, ratMul and ratCeil are
executable forms of exact rational division, multiplication and
ceiling (proved equal to /, * and the ceiling below). -/

/-- Fuel-driven count of binary digits: bitLenAux fuel n is the number
of binary digits of n whenever fuel is at least that number. -/
def bitLenAux : Nat → Nat → Nat
  | 0, _ => 0
  | fuel + 1, n => if n = 0 then 0 else bitLenAux fuel (n / 2) + 1

/-- Number of binary digits of n, so 2^(bitLen n - 1) ≤ n < 2^(bitLen n)
for positive n (and bitLen 0 = 0). -/
def bitLen (n : Nat) : Nat := bitLenAux n n

/-- The floor of log2 (a / b) for positive naturals a and b: the bit
lengths bound it to two candidates and one comparison decides. -/
def floorLog2Rat (a b : Nat) : Int :=
  let d : Int := (bitLen a : Int) - (bitLen b : Int)
  let ge : Bool :=
    if 0 ≤ d then b * 2 ^ d.toNat ≤ a else b ≤ a * 2 ^ (-d).toNat
  if ge then d else d - 1

/-- Round N / D (with D positive) to the nearest integer, ties to the
even neighbour — the IEEE default rounding of a scaled significand. -/
def roundHalfEvenFrac (N D : Nat) : Nat :=
  let q := N / D
  let r := N % D
  if 2 * r < D then q
  else if D < 2 * r then q + 1
  else if q % 2 = 0 then q else q + 1

/-- The IEEE binary64 value nearest to q (round to nearest, ties to
even), as an exact rational: 53 significant bits in the normal range
and a fixed point at 2^(-1074) below it.  Magnitudes at or beyond
2^1024, which a double would turn into infinity, are rounded with an
unbounded exponent instead; they are unreachable from the program,
whose values and maxima stay in the hundreds. -/
def roundDouble (q : ℚ) : ℚ :=
  if q = 0 then 0
  else
    let a := q.num.natAbs
    let b := q.den
    let e := floorLog2Rat a b
    let p : Int := if -1022 ≤ e then 52 - e else 1074
    let m : Nat :=
      if 0 ≤ p then roundHalfEvenFrac (a * 2 ^ p.toNat) b
      else roundHalfEvenFrac a (b * 2 ^ (-p).toNat)
    let mag : ℚ :=
      if 0 ≤ p then Rat.divInt (m : Int) ((2 : Nat) ^ p.toNat)
      else ((m * 2 ^ (-p).toNat : Nat) : ℚ)
    if q < 0 then -mag else mag

/-- Exact rational division in executable form (equal to x / y). -/
def ratDiv (x y : ℚ) : ℚ := Rat.divInt (x.num * y.den) (x.den * y.num)

/-- Exact rational multiplication in executable form (equal to x * y). -/
def ratMul (x y : ℚ) : ℚ := mkRat (x.num * y.num) (x.den * y.den)

/-- Python's int(ceil(q)) in executable form (equal to the ceiling). -/
def ratCeil (q : ℚ) : Int := -((-q.num) / (q.den : Int))

/-- The percentage of Index._print_info_many:
int(ceil(float(self.value) / float(max_value) * 100)) with the IEEE
double arithmetic of the source modelled exactly: both integers are
converted to doubles, the quotient is rounded to the nearest double,
and so is the product with 100; the final ceiling is exact. -/
def percentage (value maxV : Int) : Int :=
  ratCeil (roundDouble (ratMul
    (roundDouble (ratDiv (roundDouble (value : ℚ)) (roundDouble (maxV : ℚ))))
    100))

/-- Index._print_info_many: when max_value is 0 nothing is printed
(none); otherwise the aggregate line with the absolute value, the
maximum and the percentage is printed. -/
def print_info_many (value maxV : Int) : Option (Int × Int × Int) :=
  if maxV = 0 then none
  else some (value, maxV, percentage value maxV)

/-- An error escaping Cheesecake.compute_cheesecake_index: either a
ZeroDivisionError from the percentage line or a fault propagated from
the root index. -/
inductive PyError where
  | zeroDivisionError
  | fault (e : Fault)
deriving DecidableEq

/-- Cheesecake.compute_cheesecake_index: compute the root index, read
max_value after computing (computing can remove subindices), then form
percentage = (cheesecake_index * 100) / max_cheesecake_index with
Python 2 integer floor division and no zero guard.  Returns
(cheesecake_index, max_cheesecake_index, percentage). -/
def compute_cheesecake_index (root : Node) (ctx : Ctx) :
    Except PyError (Int × Int × Int) :=
  match computeWith root ctx with
  | .error e => .error (.fault e)
  | .ok (t, v) =>
    let m := maxValue t
    if m = 0 then .error .zeroDivisionError
    else .ok (v, m, Int.fdiv (v * 100) m)

/-! ### The schema

The CheesecakeIndex prototype tree.  The leaf compute bodies read
acquisition outcomes, walk the filesystem or call external tools; they
are external collaborators and are supplied as the parameter `impl`,
keyed by index name.  Names, max_value constants, compute argument names
and decide predicates are taken from the class definitions. -/

/-- The default decide predicate (a leaf with no override is truthy). -/
def alwaysTrue : Ctx → Bool := fun _ => true

/-- The predicate cheesecake.package_type != 'egg' of
IndexUnpackDir/IndexSetupPy/IndexGeneratedFiles.decide_after_download. -/
def notEgg (ctx : Ctx) : Bool :=
  match ctx "package_type" with
  | some (.str s) => s != "egg"
  | _ => true

/-- A leaf index instance built from its class data; value starts at the
class default -1. -/
def schemaLeaf (impl : String → List (String × Option Value) → Except Fault Int)
    (name : String) (maxVal : Int) (reqs : List String)
    (db da : Ctx → Bool) : Node :=
  .leaf { name := name, maxVal := maxVal, reqs := reqs,
          computeFn := impl name, decideBefore := db, decideAfter := da } (-1)

/-- The cheese_files rule table of IndexRequiredFiles (a Python dict in
the source; its iteration order here is the declaration order). -/
def cheese_files : List (Rule × Int) :=
  [(Doc "readme", 30),
   (.oneOf [Doc "license", Doc "copying"], 30),
   (.oneOf [Doc "announce", Doc "changelog", Doc "changes"], 20),
   (Doc "install", 20),
   (Doc "authors", 10),
   (Doc "faq", 10),
   (Doc "news", 10),
   (Doc "thanks", 10),
   (Doc "todo", 10)]

/-- The cheese_dirs rule table of IndexRequiredFiles. -/
def cheese_dirs : List (Rule × Int) :=
  [(.oneOf [.lit "doc", .lit "docs"], 30),
   (.oneOf [.lit "test", .lit "tests"], 30),
   (.oneOf [.lit "demo", .lit "example", .lit "examples"], 10)]

/-- IndexRequiredFiles.max_value =
sum(cheese_files.values() + cheese_dirs.values()). -/
def requiredFilesMaxValue : Int :=
  ((cheese_files ++ cheese_dirs).map Prod.snd).sum

/-- IndexInstallability with its seven leaf subindices. -/
def indexInstallability
    (impl : String → List (String × Option Value) → Except Fault Int) : Node :=
  .inner "INSTALLABILITY" [] (-1)
    [schemaLeaf impl "IndexPyPIDownload" 50
       ["package", "found_on_cheeseshop", "found_locally",
        "distance_from_pypi", "download_url"]
       (fun ctx => pyTruthy (ctx "name")) alwaysTrue,
     schemaLeaf impl "IndexUrlDownload" 25
       ["downloaded_from_url", "package", "url"]
       (fun ctx => pyTruthy (ctx "url")) alwaysTrue,
     schemaLeaf impl "IndexUnpack" 25 ["unpacked"] alwaysTrue alwaysTrue,
     schemaLeaf impl "IndexUnpackDir" 15
       ["unpack_dir", "original_package_name"] alwaysTrue notEgg,
     schemaLeaf impl "setup.py" 25 ["files_list", "package_dir"]
       alwaysTrue notEgg,
     schemaLeaf impl "IndexInstall" 50 ["installed", "sandbox_install_dir"]
       (fun ctx => !pyTruthy (ctx "static_only")) alwaysTrue,
     schemaLeaf impl "IndexGeneratedFiles" 0 ["files_list"]
       alwaysTrue notEgg]

/-- IndexDocumentation with its three leaf subindices. -/
def indexDocumentation
    (impl : String → List (String × Option Value) → Except Fault Int) : Node :=
  .inner "DOCUMENTATION" [] (-1)
    [schemaLeaf impl "IndexRequiredFiles" requiredFilesMaxValue
       ["files_list", "dirs_list", "package_dir"] alwaysTrue alwaysTrue,
     schemaLeaf impl "IndexDocstrings" 100 ["object_cnt", "docstring_cnt"]
       alwaysTrue alwaysTrue,
     schemaLeaf impl "IndexFormattedDocstrings" 30
       ["object_cnt", "docformat_cnt"] alwaysTrue alwaysTrue]

/-- IndexCodeKwalitee with its three leaf subindices; pylintOk models
the external probe command_successful of
IndexPyLint.decide_before_download. -/
def indexCodeKwalitee
    (impl : String → List (String × Option Value) → Except Fault Int)
    (pylintOk : Bool) : Node :=
  .inner "CODE KWALITEE" [] (-1)
    [schemaLeaf impl "IndexUnitTested" 30
       ["doctests_count", "unittests_count", "files_list", "classes",
        "methods"] alwaysTrue alwaysTrue,
     schemaLeaf impl "pylint" 50
       ["files_list", "package_dir", "pylint_max_execution_time"]
       (fun ctx => pylintOk && !pyTruthy (ctx "lite")) alwaysTrue,
     schemaLeaf impl "pep8" 34 ["files_list", "package_dir"]
       (fun ctx => pyTruthy (ctx "with_pep8")) alwaysTrue]

/-- The CheesecakeIndex prototype tree. -/
def cheesecakeIndex
    (impl : String → List (String × Option Value) → Except Fault Int)
    (pylintOk : Bool) : Node :=
  .inner "Cheesecake" [] (-1)
    [indexInstallability impl, indexDocumentation impl,
     indexCodeKwalitee impl pylintOk]

/-- IndexUnpack.compute, faithfully: if unpacked is truthy the value is
max_value (25), otherwise 0; it never raises. -/
def indexUnpackCompute (attrs : List (String × Option Value)) :
    Except Fault Int :=
  if pyTruthy (lookupAttr "unpacked" attrs) then .ok 25 else .ok 0

/-- The IndexUnpack leaf with its faithful compute body. -/
def indexUnpackSpec : LeafSpec :=
  { name := "IndexUnpack", maxVal := 25, reqs := ["unpacked"],
    computeFn := indexUnpackCompute,
    decideBefore := alwaysTrue, decideAfter := alwaysTrue }

/-- A Cheesecake instance with no attributes at all. -/
def ctxEmpty : Ctx := fun _ => none

/-! ### Lemmas: consumption state only grows -/

theorem contains_iff_mem (used : List Rule) (r : Rule) :
    used.contains r = true ↔ r ∈ used := List.elem_iff

mutual

/-- match_filename only appends to the used list. -/
theorem match_filename_growth (name : String) (rule : Rule) (used : List Rule) :
    ∃ ext, (match_filename name rule used).2 = used ++ ext := by
  rw [match_filename.eq_def]
  by_cases hc : rule ∈ used
  · exact ⟨[], by simp [hc]⟩
  · cases rule with
    | lit s =>
      by_cases he : equalName name s
      · exact ⟨[.lit s], by simp [hc, he]⟩
      · exact ⟨[], by simp [hc, he]⟩
    | oneOf ps =>
      simpa [hc] using matchPossibilities_growth name ps (.oneOf ps) used
termination_by structural rule

/-- The possibility loop only appends to the used list. -/
theorem matchPossibilities_growth (name : String) (ps : List Rule) (self : Rule)
    (used : List Rule) :
    ∃ ext, (matchPossibilities name ps self used).2 = used ++ ext := by
  cases ps with
  | nil => exact ⟨[], by simp [matchPossibilities]⟩
  | cons p rest =>
    rw [matchPossibilities]
    obtain ⟨e1, h1⟩ := match_filename_growth name p used
    by_cases hm : (match_filename name p used).1
    · exact ⟨e1 ++ [self], by simp [hm, h1]⟩
    · obtain ⟨e2, h2⟩ := matchPossibilities_growth name rest self
        (match_filename name p used).2
      rw [h1] at h2
      exact ⟨e1 ++ e2, by simp [hm, h2, h1, List.append_assoc]⟩
termination_by structural ps

end

/-- A rule already in the used list never matches and leaves the state
unchanged (the first guard of match_filename). -/
theorem match_filename_of_mem (name : String) (rule : Rule) (used : List Rule)
    (h : rule ∈ used) : match_filename name rule used = (false, used) := by
  rw [match_filename.eq_def]
  simp [h]

mutual

/-- A failed match_filename call appends nothing. -/
theorem match_filename_false_eq (name : String) (rule : Rule) (used : List Rule)
    (h : (match_filename name rule used).1 = false) :
    (match_filename name rule used).2 = used := by
  rw [match_filename.eq_def] at h ⊢
  by_cases hc : rule ∈ used
  · simp [hc]
  · cases rule with
    | lit s =>
      by_cases he : equalName name s
      · simp [hc, he] at h
      · simp [hc, he]
    | oneOf ps =>
      have hc' : ¬(used.contains (Rule.oneOf ps) = true) :=
        fun hcc => hc ((contains_iff_mem _ _).mp hcc)
      rw [if_neg hc'] at h ⊢
      exact matchPossibilities_false_eq name ps (.oneOf ps) used h
termination_by structural rule

/-- A failed possibility loop appends nothing. -/
theorem matchPossibilities_false_eq (name : String) (ps : List Rule)
    (self : Rule) (used : List Rule)
    (h : (matchPossibilities name ps self used).1 = false) :
    (matchPossibilities name ps self used).2 = used := by
  cases ps with
  | nil => simp [matchPossibilities]
  | cons p rest =>
    rw [matchPossibilities] at h ⊢
    by_cases hm : (match_filename name p used).1
    · simp [hm] at h
    · have hp := match_filename_false_eq name p used (by simpa using hm)
      simp only [hm, if_false, Bool.false_eq_true, ite_false] at h ⊢
      rw [matchPossibilities_false_eq name rest self _ h, hp]
termination_by structural ps

end

mutual

/-- A successful match_filename call puts the rule itself into the
used list. -/
theorem match_filename_true_mem (name : String) (rule : Rule) (used : List Rule)
    (h : (match_filename name rule used).1 = true) :
    rule ∈ (match_filename name rule used).2 := by
  rw [match_filename.eq_def] at h ⊢
  by_cases hc : rule ∈ used
  · simp [hc] at h
  · cases rule with
    | lit s =>
      by_cases he : equalName name s
      · simp [hc, he]
      · simp [hc, he] at h
    | oneOf ps =>
      have hc' : ¬(used.contains (Rule.oneOf ps) = true) :=
        fun hcc => hc ((contains_iff_mem _ _).mp hcc)
      rw [if_neg hc'] at h ⊢
      exact (matchPossibilities_true_mem name ps (.oneOf ps) used h).1
termination_by structural rule

/-- A successful possibility loop puts the enclosing rule and the
winning possibility into the used list. -/
theorem matchPossibilities_true_mem (name : String) (ps : List Rule)
    (self : Rule) (used : List Rule)
    (h : (matchPossibilities name ps self used).1 = true) :
    self ∈ (matchPossibilities name ps self used).2 ∧
      ∃ p ∈ ps, p ∈ (matchPossibilities name ps self used).2 := by
  cases ps with
  | nil => simp [matchPossibilities] at h
  | cons p rest =>
    rw [matchPossibilities] at h ⊢
    by_cases hm : (match_filename name p used).1
    · have hp := match_filename_true_mem name p used (by simpa using hm)
      simp only [hm, if_true, ite_true]
      refine ⟨by simp, p, by simp, by simp [hp]⟩
    · simp only [hm, if_false, Bool.false_eq_true, ite_false] at h ⊢
      obtain ⟨h1, p', hp', hmem⟩ := matchPossibilities_true_mem name rest self _ h
      exact ⟨h1, p', by simp [hp'], hmem⟩
termination_by structural ps

end

/-- A rule that matched was not already consumed. -/
theorem match_filename_true_not_mem (name : String) (rule : Rule)
    (used : List Rule) (h : (match_filename name rule used).1 = true) :
    rule ∉ used := by
  intro hm
  rw [match_filename_of_mem name rule used hm] at h
  simp at h

/-! ### Lemmas: get_score and the instrumented run -/

/-- get_score only appends to the used list. -/
theorem get_score_growth (name : String) (specs : List (Rule × Int))
    (used : List Rule) :
    ∃ ext, (get_score name specs used).2 = used ++ ext := by
  induction specs generalizing used with
  | nil => exact ⟨[], by simp [get_score]⟩
  | cons e rest ih =>
    obtain ⟨entry, value⟩ := e
    rw [get_score]
    by_cases hm : (match_filename name entry used).1
    · obtain ⟨e1, h1⟩ := match_filename_growth name entry used
      exact ⟨e1, by simp [hm, h1]⟩
    · have h1 := match_filename_false_eq name entry used (by simpa using hm)
      obtain ⟨e2, h2⟩ := ih used
      exact ⟨e2, by simp [hm, h1, h2]⟩

/-- get_score is the instrumented get_score_entry with the entry
position forgotten. -/
theorem get_score_eq_entry (name : String) (specs : List (Rule × Int)) :
    ∀ (i : Nat) (used : List Rule),
      get_score name specs used
        = (((get_score_entry name specs i used).1.map Prod.snd).getD 0,
           (get_score_entry name specs i used).2) := by
  induction specs with
  | nil => intro i used; simp [get_score, get_score_entry]
  | cons e rest ih =>
    intro i used
    obtain ⟨entry, value⟩ := e
    rw [get_score, get_score_entry]
    by_cases hm : (match_filename name entry used).1
    · simp [hm]
    · simp [hm, ih (i + 1)]

/-- get_score_entry only appends to the used list. -/
theorem get_score_entry_growth (name : String) (specs : List (Rule × Int))
    (i : Nat) (used : List Rule) :
    ∃ ext, (get_score_entry name specs i used).2 = used ++ ext := by
  obtain ⟨ext, h⟩ := get_score_growth name specs used
  have h2 := congrArg Prod.snd (get_score_eq_entry name specs i used)
  exact ⟨ext, by rw [← h2]; exact h⟩

/-- A successful instrumented lookup reports a real table entry at the
reported position whose rule was not yet consumed and is consumed
afterwards. -/
theorem get_score_entry_sound (name : String) (specs : List (Rule × Int)) :
    ∀ (i j : Nat) (w : Int) (used : List Rule),
      (get_score_entry name specs i used).1 = some (j, w) →
      ∃ r, specs[j - i]? = some (r, w) ∧ i ≤ j ∧ r ∉ used ∧
        r ∈ (get_score_entry name specs i used).2 := by
  induction specs with
  | nil => intro i j w used h; simp [get_score_entry] at h
  | cons e rest ih =>
    intro i j w used h
    obtain ⟨entry, value⟩ := e
    rw [get_score_entry] at h ⊢
    by_cases hm : (match_filename name entry used).1
    · simp only [hm, if_true, ite_true] at h ⊢
      have hij : i = j ∧ value = w := by
        have := h
        simp at this
        exact ⟨this.1, this.2⟩
      obtain ⟨rfl, rfl⟩ := hij
      exact ⟨entry, by simp, le_refl _,
        match_filename_true_not_mem name entry used hm,
        match_filename_true_mem name entry used hm⟩
    · have hu := match_filename_false_eq name entry used (by simpa using hm)
      simp only [hm, Bool.false_eq_true, ite_false] at h ⊢
      rw [hu] at h ⊢
      obtain ⟨r, hget, hij, hnot, hmem⟩ := ih (i + 1) j w used h
      refine ⟨r, ?_, by omega, hnot, hmem⟩
      have hd : j - i = (j - (i + 1)) + 1 := by omega
      rw [hd]
      simpa using hget

/-- The matching run only appends to the used list. -/
theorem run_match_growth (cands : List (String × Bool))
    (specs : List (Rule × Int)) :
    ∀ used, ∃ ext, (run_match cands specs used).2 = used ++ ext := by
  induction cands with
  | nil => intro used; exact ⟨[], by simp [run_match]⟩
  | cons c rest ih =>
    intro used
    obtain ⟨n, isEmp⟩ := c
    rw [run_match]
    by_cases he : isEmp
    · simpa [he] using ih used
    · obtain ⟨e1, h1⟩ := get_score_entry_growth n specs 0 used
      obtain ⟨e2, h2⟩ := ih ((get_score_entry n specs 0 used).2)
      rw [h1] at h2
      cases hr : (get_score_entry n specs 0 used).1 with
      | none =>
        refine ⟨e1 ++ e2, ?_⟩
        simp only [he, hr, Bool.false_eq_true, ite_false]
        rw [h1, h2, List.append_assoc]
      | some ev =>
        refine ⟨e1 ++ e2, ?_⟩
        simp only [he, hr, Bool.false_eq_true, ite_false]
        rw [h1, h2, List.append_assoc]

/-- Every recorded match event points at a real table entry whose rule
was unconsumed when the run started and is consumed when it ends. -/
theorem run_match_events_sound (cands : List (String × Bool))
    (specs : List (Rule × Int)) :
    ∀ used ev, ev ∈ (run_match cands specs used).1 →
      ∃ r, specs[ev.1]? = some (r, ev.2) ∧ r ∉ used ∧
        r ∈ (run_match cands specs used).2 := by
  induction cands with
  | nil => intro used ev h; simp [run_match] at h
  | cons c rest ih =>
    intro used ev hev
    obtain ⟨n, isEmp⟩ := c
    rw [run_match] at hev ⊢
    by_cases he : isEmp
    · simp only [he, ite_true] at hev ⊢
      exact ih used ev hev
    · simp only [he, Bool.false_eq_true, ite_false] at hev ⊢
      obtain ⟨e1, h1⟩ := get_score_entry_growth n specs 0 used
      cases hr : (get_score_entry n specs 0 used).1 with
      | none =>
        simp only [hr] at hev ⊢
        obtain ⟨r, hget, hnot, hmem⟩ := ih _ ev hev
        refine ⟨r, hget, fun hu => hnot ?_, hmem⟩
        rw [h1]
        exact List.mem_append_left _ hu
      | some ev0 =>
        simp only [hr] at hev ⊢
        rcases List.mem_cons.mp hev with rfl | hev'
        · obtain ⟨j, w⟩ := ev
          obtain ⟨r, hget, _, hnot, hmem⟩ :=
            get_score_entry_sound n specs 0 j w used hr
          obtain ⟨e2, h2⟩ := run_match_growth rest specs
            ((get_score_entry n specs 0 used).2)
          refine ⟨r, by simpa using hget, hnot, ?_⟩
          rw [h2]
          exact List.mem_append_left _ hmem
        · obtain ⟨r, hget, hnot, hmem⟩ := ih _ ev hev'
          refine ⟨r, hget, fun hu => hnot ?_, hmem⟩
          rw [h1]
          exact List.mem_append_left _ hu

/-- No table entry position is recorded twice in one run. -/
theorem run_match_nodup (cands : List (String × Bool))
    (specs : List (Rule × Int)) :
    ∀ used, ((run_match cands specs used).1.map Prod.fst).Nodup := by
  induction cands with
  | nil => intro used; simp [run_match]
  | cons c rest ih =>
    intro used
    obtain ⟨n, isEmp⟩ := c
    rw [run_match]
    by_cases he : isEmp
    · simpa [he] using ih used
    · simp only [he, Bool.false_eq_true, ite_false]
      cases hr : (get_score_entry n specs 0 used).1 with
      | none => simpa [hr] using ih ((get_score_entry n specs 0 used).2)
      | some ev0 =>
        obtain ⟨j, w⟩ := ev0
        simp only [hr, List.map_cons, List.nodup_cons]
        refine ⟨?_, ih _⟩
        intro hj
        obtain ⟨ev, hev, hj'⟩ := List.mem_map.mp hj
        obtain ⟨r, hget, _, _, hmem⟩ :=
          get_score_entry_sound n specs 0 j w used hr
        obtain ⟨r', hget', hnot', _⟩ :=
          run_match_events_sound rest specs
            ((get_score_entry n specs 0 used).2) ev hev
        rw [hj'] at hget'
        have : r' = r := by
          have hgj : specs[j]? = some (r, w) := by simpa using hget
          rw [hgj] at hget'
          exact (Prod.mk.injEq _ _ _ _ ▸ (Option.some.injEq _ _ ▸ hget')).1.symm
        exact hnot' (this ▸ hmem)

/-- The value of _compute_from_rules is the sum of the weights of the
recorded match events, and both runs end in the same consumption
state. -/
theorem compute_from_rules_eq_run (cands : List (String × Bool))
    (specs : List (Rule × Int)) :
    ∀ used,
      (compute_from_rules cands specs used).2.1
          = ((run_match cands specs used).1.map Prod.snd).sum ∧
        (compute_from_rules cands specs used).2.2
          = (run_match cands specs used).2 := by
  induction cands with
  | nil => intro used; simp [run_match, compute_from_rules]
  | cons c rest ih =>
    intro used
    obtain ⟨n, isEmp⟩ := c
    rw [run_match, compute_from_rules]
    by_cases he : isEmp
    · simpa [he] using ih used
    · simp only [he, Bool.false_eq_true, ite_false]
      have hgs := get_score_eq_entry n specs 0 used
      cases hr : (get_score_entry n specs 0 used).1 with
      | none =>
        have hv : get_score n specs used
            = (0, (get_score_entry n specs 0 used).2) := by rw [hgs, hr]; rfl
        obtain ⟨ihv, ihu⟩ := ih ((get_score_entry n specs 0 used).2)
        simp [hr, hv, ihv, ihu]
      | some ev0 =>
        obtain ⟨j, w⟩ := ev0
        have hv : get_score n specs used
            = (w, (get_score_entry n specs 0 used).2) := by rw [hgs, hr]; rfl
        obtain ⟨ihv, ihu⟩ := ih ((get_score_entry n specs 0 used).2)
        by_cases hw : w = 0
        · simp [hr, hv, ihv, ihu, hw]
        · simp [hr, hv, ihv, ihu, hw]

/-! ### Lemmas: the Index tree -/

/-- After a successful compute_with the value attribute holds the
returned value. -/
theorem computeWith_ok_value (t : Node) (ctx : Ctx) (t' : Node) (v : Int)
    (h : computeWith t ctx = .ok (t', v)) : nodeValue t' = v := by
  cases t with
  | leaf s v0 =>
    rw [computeWith] at h
    cases hf : s.computeFn (get_attributes ctx s.reqs) with
    | ok w => rw [hf] at h; injection h with h'; cases h'; rfl
    | error e => rw [hf] at h; cases h
  | inner n rq v0 cs =>
    rw [computeWith] at h
    injection h with h'
    cases h'
    rfl

/-- The interior max_value is the sum of the children's max_value. -/
theorem maxValueList_eq : ∀ cs : List Node,
    maxValueList cs = (cs.map maxValue).sum
  | [] => by simp [maxValueList]
  | c :: cs => by
    rw [maxValueList, maxValueList_eq cs]
    simp

mutual

/-- Gating never adds node names, requirement names or leaf max_value
constants. -/
theorem decide_shrinks (t : Node) (ph : Phase) (ctx : Ctx) :
    (∀ x ∈ allNames (decideNode t ph ctx).1, x ∈ allNames t) ∧
      (∀ x ∈ requirementsOf (decideNode t ph ctx).1, x ∈ requirementsOf t) ∧
      (∀ x ∈ leafMaxVals (decideNode t ph ctx).1, x ∈ leafMaxVals t) := by
  cases t with
  | leaf s v => exact ⟨fun x hx => hx, fun x hx => hx, fun x hx => hx⟩
  | inner n rq v cs =>
    cases cs with
    | nil => exact ⟨fun x hx => hx, fun x hx => hx, fun x hx => hx⟩
    | cons c rest =>
      have hk := decideChildren_shrinks (c :: rest) ph ctx
      refine ⟨?_, ?_, ?_⟩
      · intro x hx
        rw [decideNode, allNames] at hx
        rw [allNames]
        rcases List.mem_cons.mp hx with rfl | hx'
        · exact List.mem_cons_self _ _
        · exact List.mem_cons_of_mem _ (hk.1 x hx')
      · intro x hx
        rw [decideNode, requirementsOf] at hx
        rw [requirementsOf]
        rcases List.mem_append.mp hx with hx' | hx'
        · exact List.mem_append_left _ hx'
        · exact List.mem_append_right _ (hk.2.1 x hx')
      · intro x hx
        rw [decideNode, leafMaxVals] at hx
        rw [leafMaxVals]
        exact hk.2.2 x hx
termination_by structural t

/-- The gating loop never adds node names, requirement names or leaf
max_value constants. -/
theorem decideChildren_shrinks (cs : List Node) (ph : Phase) (ctx : Ctx) :
    (∀ x ∈ allNamesList (decideChildren cs ph ctx), x ∈ allNamesList cs) ∧
      (∀ x ∈ requirementsList (decideChildren cs ph ctx),
        x ∈ requirementsList cs) ∧
      (∀ x ∈ leafMaxValsList (decideChildren cs ph ctx),
        x ∈ leafMaxValsList cs) := by
  cases cs with
  | nil => exact ⟨fun x hx => hx, fun x hx => hx, fun x hx => hx⟩
  | cons c rest =>
    have hc := decide_shrinks c ph ctx
    have hr := decideChildren_shrinks rest ph ctx
    rw [decideChildren]
    by_cases hkeep : (decideNode c ph ctx).2
    · simp only [hkeep, if_true, ite_true]
      refine ⟨?_, ?_, ?_⟩
      · intro x hx
        rw [allNamesList] at hx ⊢
        rcases List.mem_append.mp hx with hx' | hx'
        · exact List.mem_append_left _ (hc.1 x hx')
        · exact List.mem_append_right _ (hr.1 x hx')
      · intro x hx
        rw [requirementsList] at hx ⊢
        rcases List.mem_append.mp hx with hx' | hx'
        · exact List.mem_append_left _ (hc.2.1 x hx')
        · exact List.mem_append_right _ (hr.2.1 x hx')
      · intro x hx
        rw [leafMaxValsList] at hx ⊢
        rcases List.mem_append.mp hx with hx' | hx'
        · exact List.mem_append_left _ (hc.2.2 x hx')
        · exact List.mem_append_right _ (hr.2.2 x hx')
    · simp only [hkeep, Bool.false_eq_true, ite_false]
      refine ⟨?_, ?_, ?_⟩
      · intro x hx
        rw [allNamesList]
        exact List.mem_append_right _ (hr.1 x hx)
      · intro x hx
        rw [requirementsList]
        exact List.mem_append_right _ (hr.2.1 x hx)
      · intro x hx
        rw [leafMaxValsList]
        exact List.mem_append_right _ (hr.2.2 x hx)
termination_by structural cs

end

mutual

/-- Computing never adds node names, requirement names or leaf
max_value constants. -/
theorem compute_shrinks (t : Node) (ctx : Ctx) :
    ∀ t' v, computeWith t ctx = .ok (t', v) →
      (∀ x ∈ allNames t', x ∈ allNames t) ∧
        (∀ x ∈ requirementsOf t', x ∈ requirementsOf t) ∧
        (∀ x ∈ leafMaxVals t', x ∈ leafMaxVals t) := by
  intro t' v h
  cases t with
  | leaf s v0 =>
    rw [computeWith] at h
    cases hf : s.computeFn (get_attributes ctx s.reqs) with
    | ok w =>
      rw [hf] at h
      injection h with h'
      injection h' with h1 h2
      subst h1
      exact ⟨fun x hx => hx, fun x hx => hx, fun x hx => hx⟩
    | error e => rw [hf] at h; cases h
  | inner n rq v0 cs =>
    rw [computeWith] at h
    injection h with h'
    injection h' with h1 h2
    subst h1
    have hk := computeChildren_shrinks cs ctx
    refine ⟨?_, ?_, ?_⟩
    · intro x hx
      rw [allNames] at hx ⊢
      rcases List.mem_cons.mp hx with rfl | hx'
      · exact List.mem_cons_self _ _
      · exact List.mem_cons_of_mem _ (hk.1 x hx')
    · intro x hx
      rw [requirementsOf] at hx ⊢
      rcases List.mem_append.mp hx with hx' | hx'
      · exact List.mem_append_left _ hx'
      · exact List.mem_append_right _ (hk.2.1 x hx')
    · intro x hx
      rw [leafMaxVals] at hx ⊢
      exact hk.2.2 x hx
termination_by structural t

/-- The compute loop never adds node names, requirement names or leaf
max_value constants. -/
theorem computeChildren_shrinks (cs : List Node) (ctx : Ctx) :
    (∀ x ∈ allNamesList (computeChildren cs ctx).1, x ∈ allNamesList cs) ∧
      (∀ x ∈ requirementsList (computeChildren cs ctx).1,
        x ∈ requirementsList cs) ∧
      (∀ x ∈ leafMaxValsList (computeChildren cs ctx).1,
        x ∈ leafMaxValsList cs) := by
  cases cs with
  | nil => exact ⟨fun x hx => hx, fun x hx => hx, fun x hx => hx⟩
  | cons c rest =>
    have hr := computeChildren_shrinks rest ctx
    rw [computeChildren]
    cases hm : computeWith c ctx with
    | ok p =>
      have hc := compute_shrinks c ctx p.1 p.2 (by rw [hm])
      refine ⟨?_, ?_, ?_⟩
      · intro x hx
        rw [allNamesList] at hx ⊢
        rcases List.mem_append.mp hx with hx' | hx'
        · exact List.mem_append_left _ (hc.1 x hx')
        · exact List.mem_append_right _ (hr.1 x hx')
      · intro x hx
        rw [requirementsList] at hx ⊢
        rcases List.mem_append.mp hx with hx' | hx'
        · exact List.mem_append_left _ (hc.2.1 x hx')
        · exact List.mem_append_right _ (hr.2.1 x hx')
      · intro x hx
        rw [leafMaxValsList] at hx ⊢
        rcases List.mem_append.mp hx with hx' | hx'
        · exact List.mem_append_left _ (hc.2.2 x hx')
        · exact List.mem_append_right _ (hr.2.2 x hx')
    | error e =>
      refine ⟨?_, ?_, ?_⟩
      · intro x hx
        rw [allNamesList]
        exact List.mem_append_right _ (hr.1 x hx)
      · intro x hx
        rw [requirementsList]
        exact List.mem_append_right _ (hr.2.1 x hx)
      · intro x hx
        rw [leafMaxValsList]
        exact List.mem_append_right _ (hr.2.2 x hx)
termination_by structural cs

end

/-! ### Lemmas: the executable rational primitives -/

/-- ratDiv is exact rational division. -/
theorem ratDiv_eq (x y : ℚ) : ratDiv x y = x / y := (Rat.div_def' x y).symm

/-- ratMul is exact rational multiplication. -/
theorem ratMul_eq (x y : ℚ) : ratMul x y = x * y := (Rat.mul_eq_mkRat x y).symm

/-- ratCeil is the exact ceiling. -/
theorem ratCeil_eq (q : ℚ) : ratCeil q = ⌈q⌉ := by
  have h1 : ⌈q⌉ = -⌊-q⌋ := by
    rw [Int.floor_neg]
    ring
  rw [ratCeil, h1]
  congr 1
  have h2 : ((-q.num : Int) : ℚ) / ((q.den : ℕ) : ℚ) = -q := by
    push_cast
    rw [neg_div, Rat.num_div_den]
  rw [← h2, Rat.floor_intCast_div_natCast]

/-! ### The orchestrator's gating calls (Cheesecake.__init__) -/

/-- The index tree after self.index.decide_before_download(self). -/
def gatedBefore (impl : String → List (String × Option Value) → Except Fault Int)
    (pylintOk : Bool) (ctx1 : Ctx) : Node :=
  (decideNode (cheesecakeIndex impl pylintOk) .beforeDownload ctx1).1

/-- The index tree after the subsequent
self.index.decide_after_download(self). -/
def gatedAfter (impl : String → List (String × Option Value) → Except Fault Int)
    (pylintOk : Bool) (ctx1 ctx2 : Ctx) : Node :=
  (decideNode (gatedBefore impl pylintOk ctx1) .afterDownload ctx2).1

/-! ### Concrete nodes used to exercise the theorems -/

/-- A leaf whose compute always succeeds with value k (no requirements). -/
def okLeaf (name : String) (k v : Int) : Node :=
  .leaf { name := name, maxVal := 10, reqs := [],
          computeFn := fun _ => .ok k,
          decideBefore := alwaysTrue, decideAfter := alwaysTrue } v

/-- A leaf whose compute always raises (an external tool crashing). -/
def faultingLeaf : Node :=
  .leaf { name := "Faulty", maxVal := 10, reqs := [],
          computeFn := fun _ => .error (.computationFault "tool crashed"),
          decideBefore := alwaysTrue, decideAfter := alwaysTrue } (-1)

/-- A leaf that is gated away in the before-download phase. -/
def droppedLeaf : Node :=
  .leaf { name := "Drop", maxVal := 7, reqs := ["beta"],
          computeFn := fun _ => .ok 7,
          decideBefore := fun _ => false, decideAfter := alwaysTrue } (-1)

/-- A leaf that survives both gating phases. -/
def keptLeaf (v : Int) : Node :=
  .leaf { name := "Keep", maxVal := 5, reqs := ["alpha"],
          computeFn := fun _ => .ok 5,
          decideBefore := alwaysTrue, decideAfter := alwaysTrue } v

/-- An implementation in which every leaf compute raises. -/
def implFail : String → List (String × Option Value) → Except Fault Int :=
  fun _ _ => .error (.computationFault "external tool failed")

/-! ### Claims -/

/-- C1: for an interior node with children [A, B, C] where B's
compute_with raises on every call, the parent's compute_with returns
normally (no fault escapes), afterwards the children list is exactly
[A, C] (in their computed states), and the parent's value is
A.value + C.value. -/
theorem compute_fault_isolated (n : String) (rq : List String) (v0 a c : Int)
    (A B C : Node) (ctx : Ctx) (A' C' : Node)
    (hA : computeWith A ctx = .ok (A', a))
    (hB : ∀ ctx' : Ctx, ∃ e : Fault, computeWith B ctx' = .error e)
    (hC : computeWith C ctx = .ok (C', c)) :
    computeWith (.inner n rq v0 [A, B, C]) ctx
        = .ok (.inner n rq (a + c) [A', C'], a + c) ∧
      a + c = nodeValue A' + nodeValue C' := by
  obtain ⟨e, hBe⟩ := hB ctx
  have h1 : computeChildren [A, B, C] ctx = ([A', C'], a + c) := by
    rw [computeChildren, computeChildren, computeChildren, computeChildren]
    rw [hA, hBe, hC]
    simp
  constructor
  · rw [computeWith, h1]
  · rw [computeWith_ok_value A ctx A' a hA, computeWith_ok_value C ctx C' c hC]

/-- Witness for C1 at concrete nodes. -/
theorem compute_fault_isolated_witness :
    computeWith (.inner "P" [] (-1) [okLeaf "A" 3 (-1), faultingLeaf,
        okLeaf "Curly" 4 (-1)]) ctxEmpty
        = .ok (.inner "P" [] (3 + 4) [okLeaf "A" 3 3, okLeaf "Curly" 4 4],
               3 + 4) ∧
      (3 + 4 : Int) = nodeValue (okLeaf "A" 3 3) + nodeValue (okLeaf "Curly" 4 4) :=
  compute_fault_isolated "P" [] (-1) 3 4 (okLeaf "A" 3 (-1)) faultingLeaf
    (okLeaf "Curly" 4 (-1)) ctxEmpty (okLeaf "A" 3 3) (okLeaf "Curly" 4 4)
    rfl (fun _ => ⟨.computationFault "tool crashed", rfl⟩) rfl

/-- C2 counterexample: a leaf (IndexUnpack) whose declared requirement
"unpacked" is absent from the context computes normally (it sees None,
i.e. none) instead of raising a MissingInput fault; no such fault kind
exists in the code. -/
theorem missing_input_counterexample :
    ctxEmpty "unpacked" = none ∧
    computeWith (.leaf indexUnpackSpec (-1)) ctxEmpty
      = .ok (.leaf indexUnpackSpec 0, 0) :=
  ⟨rfl, rfl⟩

/-- C2 amended: when a leaf's declared requirement name is absent from
the context at compute time, get_attributes silently binds it to None
(none) and compute_with proceeds with that binding; the only failure a
leaf's compute_with can produce is the fault its own compute body
raises, and there is no separate MissingInput fault. -/
theorem missing_input_becomes_none (ctx : Ctx) (names : List String)
    (n : String) (h : n ∈ names) (habs : ctx n = none) :
    (n, none) ∈ get_attributes ctx names ∧
      ∀ (s : LeafSpec) (v : Int),
        computeWith (.leaf s v) ctx =
          match s.computeFn (get_attributes ctx s.reqs) with
          | .ok w => .ok (.leaf s w, w)
          | .error e => .error e := by
  constructor
  · rw [get_attributes]
    exact List.mem_map.mpr ⟨n, h, by rw [habs]⟩
  · intro s v
    rw [computeWith]

/-- Witness for C2 amended at the IndexUnpack leaf and the empty
context. -/
theorem missing_input_becomes_none_witness :
    "unpacked" ∈ ["unpacked"] ∧ ctxEmpty "unpacked" = none ∧
    (("unpacked", (none : Option Value))
        ∈ get_attributes ctxEmpty ["unpacked"] ∧
      ∀ (s : LeafSpec) (v : Int),
        computeWith (.leaf s v) ctxEmpty =
          match s.computeFn (get_attributes ctxEmpty s.reqs) with
          | .ok w => .ok (.leaf s w, w)
          | .error e => .error e) :=
  ⟨List.mem_singleton.mpr rfl, rfl,
   missing_input_becomes_none ctxEmpty ["unpacked"] "unpacked"
     (List.mem_singleton.mpr rfl) rfl⟩

/-- C4 counterexample: at value=7, max_value=50 the report prints the
percentage 15 while the exact ceiling of 7 / 50 * 100 is 14 — the
double rounding of float(7)/float(50) lands just above 0.14 and the
product just above 14, so the printed percentage differs from
ceil(value / maxValue * 100). -/
theorem report_percentage_counterexample :
    print_info_many 7 50 = some (7, 50, 15) ∧
      (15 : Int) ≠ ⌈(((7 : Int) : ℚ) / ((50 : Int) : ℚ)) * 100⌉ := by
  constructor
  · have h : percentage 7 50 = 15 := by decide
    rw [print_info_many, if_neg (by norm_num), h]
  · norm_num

/-- C4 amended: for an interior report line with positive max_value the
printed percentage is the ceiling of the IEEE-double evaluation of
value / max_value * 100 (each division and multiplication rounded to
the nearest double), which agrees with the exact ceiling at the spec's
instances (1,2 gives 50 and 1,3 gives 34) but can exceed it by one
where the rounding lands just above an integer (7,50 gives 15); when
max_value is 0 the line is omitted. -/
theorem report_percentage_float_ceiling (v m : Int) :
    (0 < m →
      print_info_many v m = some (v, m,
        ⌈roundDouble (roundDouble
          (roundDouble (v : ℚ) / roundDouble (m : ℚ)) * 100)⌉)) ∧
    (m = 0 → print_info_many v m = none) ∧
    percentage 1 2 = 50 ∧ percentage 1 3 = 34 ∧ percentage 7 50 = 15 := by
  refine ⟨?_, ?_, by decide, by decide, by decide⟩
  · intro hm
    rw [print_info_many, if_neg (by omega), percentage, ratDiv_eq, ratMul_eq,
      ratCeil_eq]
  · intro hm
    rw [print_info_many, if_pos hm]

/-- Witness for C4 amended at value=1, maxValue=3 and at maxValue=0. -/
theorem report_percentage_float_ceiling_witness :
    ((0 : Int) < 3 ∧
      print_info_many 1 3 = some (1, 3,
        ⌈roundDouble (roundDouble
          (roundDouble ((1 : Int) : ℚ) / roundDouble ((3 : Int) : ℚ))
          * 100)⌉)) ∧
    print_info_many 5 0 = none :=
  ⟨⟨by norm_num, (report_percentage_float_ceiling 1 3).1 (by norm_num)⟩,
   (report_percentage_float_ceiling 5 0).2.1 rfl⟩

/-- C9: the overall summary divides cheesecake_index * 100 by the
root's max_value with Python floor division and no zero guard: when the
computed tree's max_value is 0 (every subindex removed), the overall
computation fails with ZeroDivisionError instead of omitting the
percentage; otherwise it returns the floor-divided percentage. -/
theorem overall_index_zero_division (root : Node) (ctx : Ctx) (t : Node)
    (v : Int) (hc : computeWith root ctx = .ok (t, v)) :
    (maxValue t = 0 →
      compute_cheesecake_index root ctx = .error .zeroDivisionError) ∧
    (maxValue t ≠ 0 →
      compute_cheesecake_index root ctx
        = .ok (v, maxValue t, Int.fdiv (v * 100) (maxValue t))) := by
  constructor
  · intro hm
    rw [compute_cheesecake_index, hc]
    simp [hm]
  · intro hm
    rw [compute_cheesecake_index, hc]
    simp [hm]

/-- Witness for C9: a root whose only subindex always faults is left
with no subindices and max_value 0, and the overall computation raises
ZeroDivisionError. -/
theorem overall_index_zero_division_witness :
    computeWith (.inner "Cheesecake" [] (-1) [faultingLeaf]) ctxEmpty
        = .ok (.inner "Cheesecake" [] 0 [], 0) ∧
      maxValue (Node.inner "Cheesecake" [] 0 []) = 0 ∧
      compute_cheesecake_index (.inner "Cheesecake" [] (-1) [faultingLeaf])
          ctxEmpty
        = .error .zeroDivisionError :=
  ⟨rfl, rfl,
   (overall_index_zero_division (.inner "Cheesecake" [] (-1) [faultingLeaf])
      ctxEmpty (.inner "Cheesecake" [] 0 []) 0 rfl).1 rfl⟩

/-- C3: within one matching run every table entry matches at most one
candidate, every recorded match points at a real table entry with its
declared weight, and the run's total value is exactly the sum of the
matched entries' weights — so each rule contributes its weight once or
not at all. -/
theorem rule_value_exactly_once (cands : List (String × Bool))
    (specs : List (Rule × Int)) :
    (∀ j : Nat, ((run_match cands specs []).1.map Prod.fst).count j ≤ 1) ∧
      (∀ ev ∈ (run_match cands specs []).1,
        ∃ r, specs[ev.1]? = some (r, ev.2)) ∧
      (compute_from_rules cands specs []).2.1
        = ((run_match cands specs []).1.map Prod.snd).sum := by
  refine ⟨?_, ?_, (compute_from_rules_eq_run cands specs []).1⟩
  · intro j
    exact List.nodup_iff_count_le_one.mp (run_match_nodup cands specs []) j
  · intro ev hev
    obtain ⟨r, hget, _, _⟩ := run_match_events_sound cands specs [] ev hev
    exact ⟨r, hget⟩

/-- C5: an interior node's max_value is always the sum of its current
children's max_value, a leaf's max_value is its class constant, and
every leaf constant of the schema tree is non-negative — before
gating, after each gating phase, and after compute. -/
theorem max_value_invariant
    (impl : String → List (String × Option Value) → Except Fault Int)
    (pylintOk : Bool) (ctx1 ctx2 ctx3 : Ctx) :
    (∀ (n : String) (rq : List String) (v : Int) (cs : List Node),
        maxValue (.inner n rq v cs) = (cs.map maxValue).sum) ∧
      (∀ (s : LeafSpec) (v : Int), maxValue (.leaf s v) = s.maxVal) ∧
      (∀ m ∈ leafMaxVals (gatedBefore impl pylintOk ctx1), 0 ≤ m) ∧
      (∀ m ∈ leafMaxVals (gatedAfter impl pylintOk ctx1 ctx2), 0 ≤ m) ∧
      (∀ t' v',
        computeWith (gatedAfter impl pylintOk ctx1 ctx2) ctx3 = .ok (t', v') →
        ∀ m ∈ leafMaxVals t', 0 ≤ m) := by
  have hschema : ∀ m ∈ leafMaxVals (cheesecakeIndex impl pylintOk), 0 ≤ m := by
    have he : leafMaxVals (cheesecakeIndex impl pylintOk)
        = [50, 25, 25, 15, 25, 50, 0, 220, 100, 30, 30, 50, 34] := rfl
    rw [he]
    intro m hm
    fin_cases hm <;> norm_num
  have hb : ∀ m ∈ leafMaxVals (gatedBefore impl pylintOk ctx1), 0 ≤ m := by
    intro m hm
    exact hschema m
      ((decide_shrinks (cheesecakeIndex impl pylintOk) .beforeDownload
        ctx1).2.2 m hm)
  have ha : ∀ m ∈ leafMaxVals (gatedAfter impl pylintOk ctx1 ctx2), 0 ≤ m := by
    intro m hm
    exact hb m
      ((decide_shrinks (gatedBefore impl pylintOk ctx1) .afterDownload
        ctx2).2.2 m hm)
  refine ⟨?_, fun s v => rfl, hb, ha, ?_⟩
  · intro n rq v cs
    rw [maxValue, maxValueList_eq]
  · intro t' v' hc m hm
    exact ha m
      ((compute_shrinks (gatedAfter impl pylintOk ctx1 ctx2) ctx3 t' v'
        hc).2.2 m hm)

/-- Witness for C5: with every leaf compute faulting, all leaves drop
out and the computed tree keeps the invariant trivially. -/
theorem max_value_invariant_witness :
    computeWith (gatedAfter implFail true ctxEmpty ctxEmpty) ctxEmpty
        = .ok (.inner "Cheesecake" [] 0
            [.inner "INSTALLABILITY" [] 0 [],
             .inner "DOCUMENTATION" [] 0 [],
             .inner "CODE KWALITEE" [] 0 []], 0) ∧
      ∀ m ∈ leafMaxVals (Node.inner "Cheesecake" [] 0
            [.inner "INSTALLABILITY" [] 0 [],
             .inner "DOCUMENTATION" [] 0 [],
             .inner "CODE KWALITEE" [] 0 []]), 0 ≤ m :=
  ⟨rfl,
   (max_value_invariant implFail true ctxEmpty ctxEmpty ctxEmpty).2.2.2.2
     _ 0 rfl⟩

/-- C8: a node name or requirement name absent after the
before-download gating never reappears: it is still absent after the
after-download gating and after compute. -/
theorem gating_irreversible (t : Node) (ctx1 ctx2 ctx3 : Ctx)
    (t1 t2 t3 : Node) (b1 b2 : Bool) (v3 : Int)
    (_h1 : decideNode t .beforeDownload ctx1 = (t1, b1))
    (h2 : decideNode t1 .afterDownload ctx2 = (t2, b2))
    (h3 : computeWith t2 ctx3 = .ok (t3, v3)) :
    (∀ nm, nm ∉ allNames t1 → nm ∉ allNames t2 ∧ nm ∉ allNames t3) ∧
      (∀ r, r ∉ requirementsOf t1 →
        r ∉ requirementsOf t2 ∧ r ∉ requirementsOf t3) := by
  have hs2 := decide_shrinks t1 .afterDownload ctx2
  rw [h2] at hs2
  have hs3 := compute_shrinks t2 ctx3 t3 v3 h3
  refine ⟨?_, ?_⟩
  · intro nm hnm
    have m2 : nm ∉ allNames t2 := fun hx => hnm (hs2.1 nm hx)
    exact ⟨m2, fun hx => m2 (hs3.1 nm hx)⟩
  · intro r hr
    have m2 : r ∉ requirementsOf t2 := fun hx => hr (hs2.2.1 r hx)
    exact ⟨m2, fun hx => m2 (hs3.2.1 r hx)⟩

/-- Witness for C8: the leaf "Drop" (requiring "beta") is gated away
before download and stays absent from names and requirements through
the rest of the run. -/
theorem gating_irreversible_witness :
    decideNode (.inner "ROOT" [] (-1) [keptLeaf (-1), droppedLeaf])
        .beforeDownload ctxEmpty
      = (.inner "ROOT" [] (-1) [keptLeaf (-1)], true) ∧
    "Drop" ∉ allNames (Node.inner "ROOT" [] (-1) [keptLeaf (-1)]) ∧
    "Drop" ∉ allNames (Node.inner "ROOT" [] 5 [keptLeaf 5]) ∧
    "beta" ∉ requirementsOf (Node.inner "ROOT" [] (-1) [keptLeaf (-1)]) ∧
    "beta" ∉ requirementsOf (Node.inner "ROOT" [] 5 [keptLeaf 5]) := by
  have H := gating_irreversible
    (.inner "ROOT" [] (-1) [keptLeaf (-1), droppedLeaf])
    ctxEmpty ctxEmpty ctxEmpty
    (.inner "ROOT" [] (-1) [keptLeaf (-1)])
    (.inner "ROOT" [] (-1) [keptLeaf (-1)])
    (.inner "ROOT" [] 5 [keptLeaf 5]) true true 5 rfl rfl rfl
  have hd : "Drop" ∉ allNames (Node.inner "ROOT" [] (-1) [keptLeaf (-1)]) := by
    decide
  have hbeta : "beta" ∉ requirementsOf
      (Node.inner "ROOT" [] (-1) [keptLeaf (-1)]) := by decide
  exact ⟨rfl, hd, (H.1 "Drop" hd).2, hbeta, (H.2 "beta" hbeta).2⟩

/-- C7 counterexample: after OneOf("doc","docs") matches candidate
"doc", the OneOf itself is in the consumed list, and a later candidate
"docs" can no longer match it — contradicting "the match consumes the
winning leaf sub-rule and not the OneOf itself". -/
theorem oneof_self_consumed_counterexample :
    (match_filename "doc" (Rule.oneOf [.lit "doc", .lit "docs"]) []).1
        = true ∧
      Rule.oneOf [.lit "doc", .lit "docs"]
        ∈ (match_filename "doc" (Rule.oneOf [.lit "doc", .lit "docs"]) []).2 ∧
      (match_filename "docs" (Rule.oneOf [.lit "doc", .lit "docs"])
        (match_filename "doc" (Rule.oneOf [.lit "doc", .lit "docs"]) []).2).1
        = false := by
  refine ⟨by decide, by decide, by decide⟩

/-- C7 amended: a successful OneOf match consumes both the winning
possibility and the OneOf itself, and the consumed OneOf is excluded
from the not-used rules reported after the run. -/
theorem oneof_consumed_for_reporting (name : String)
    (ps used out : List Rule)
    (h : match_filename name (.oneOf ps) used = (true, out)) :
    Rule.oneOf ps ∈ out ∧ (∃ p ∈ ps, p ∈ out) ∧
      ∀ rules : List Rule, Rule.oneOf ps ∉ get_not_used rules out := by
  have h1 : (match_filename name (.oneOf ps) used).1 = true := by rw [h]
  have hmem := match_filename_true_mem name (.oneOf ps) used h1
  rw [h] at hmem
  have hnot : Rule.oneOf ps ∉ used :=
    match_filename_true_not_mem name (.oneOf ps) used h1
  have hM : match_filename name (.oneOf ps) used
      = matchPossibilities name ps (.oneOf ps) used := by
    rw [match_filename.eq_def]
    have hc' : ¬(used.contains (Rule.oneOf ps) = true) :=
      fun hcc => hnot ((contains_iff_mem _ _).mp hcc)
    rw [if_neg hc']
  rw [hM] at h h1
  obtain ⟨_, p, hp, hpmem⟩ :=
    matchPossibilities_true_mem name ps (.oneOf ps) used h1
  rw [h] at hpmem
  refine ⟨hmem, ⟨p, hp, hpmem⟩, ?_⟩
  intro rules hin
  rw [get_not_used] at hin
  have hf := List.mem_filter.mp hin
  simp only [decide_eq_true_eq] at hf
  exact hf.2 hmem

/-- Witness for C7 amended at OneOf("demo","example","examples") and
candidate "demo". -/
theorem oneof_consumed_for_reporting_witness :
    match_filename "demo" (Rule.oneOf [.lit "demo", .lit "example",
        .lit "examples"]) []
      = (true, [Rule.lit "demo",
                Rule.oneOf [.lit "demo", .lit "example", .lit "examples"]]) ∧
    (Rule.oneOf [.lit "demo", .lit "example", .lit "examples"]
        ∈ [Rule.lit "demo",
           Rule.oneOf [.lit "demo", .lit "example", .lit "examples"]] ∧
      (∃ p ∈ [Rule.lit "demo", Rule.lit "example", Rule.lit "examples"],
        p ∈ [Rule.lit "demo",
             Rule.oneOf [.lit "demo", .lit "example", .lit "examples"]]) ∧
      ∀ rules : List Rule,
        Rule.oneOf [.lit "demo", .lit "example", .lit "examples"]
          ∉ get_not_used rules
              [Rule.lit "demo",
               Rule.oneOf [.lit "demo", .lit "example", .lit "examples"]]) :=
  ⟨by decide,
   oneof_consumed_for_reporting "demo"
     [.lit "demo", .lit "example", .lit "examples"] [] _ (by decide)⟩

/-- C6: each of "Readme", "README.txt" and "readme.rst" alone satisfies
WithOptionalExt("readme", ["html","txt","rst"]); with non-empty
candidates "Readme" then "README.txt" in that order, the first consumes
the rule (the second scores 0) and the run's total value is the rule's
weight exactly once. -/
theorem case_tolerant_matching (w : Int) :
    (match_filename "Readme"
        (WithOptionalExt "readme" ["html", "txt", "rst"]) []).1 = true ∧
      (match_filename "README.txt"
        (WithOptionalExt "readme" ["html", "txt", "rst"]) []).1 = true ∧
      (match_filename "readme.rst"
        (WithOptionalExt "readme" ["html", "txt", "rst"]) []).1 = true ∧
      (get_score "README.txt"
        [(WithOptionalExt "readme" ["html", "txt", "rst"], w)]
        (match_filename "Readme"
          (WithOptionalExt "readme" ["html", "txt", "rst"]) []).2).1 = 0 ∧
      (compute_from_rules [("Readme", false), ("README.txt", false)]
        [(WithOptionalExt "readme" ["html", "txt", "rst"], w)] []).2.1 = w := by
  have hm1 : match_filename "Readme"
      (WithOptionalExt "readme" ["html", "txt", "rst"]) []
      = (true, [Rule.lit "readme",
                WithOptionalExt "readme" ["html", "txt", "rst"]]) := by decide
  have hm2 : match_filename "README.txt"
      (WithOptionalExt "readme" ["html", "txt", "rst"])
      [Rule.lit "readme", WithOptionalExt "readme" ["html", "txt", "rst"]]
      = (false, [Rule.lit "readme",
                 WithOptionalExt "readme" ["html", "txt", "rst"]]) := by decide
  have hg1 : get_score "Readme"
      [(WithOptionalExt "readme" ["html", "txt", "rst"], w)] []
      = (w, [Rule.lit "readme",
             WithOptionalExt "readme" ["html", "txt", "rst"]]) := by
    rw [get_score, hm1]
    rfl
  have hg2 : get_score "README.txt"
      [(WithOptionalExt "readme" ["html", "txt", "rst"], w)]
      [Rule.lit "readme", WithOptionalExt "readme" ["html", "txt", "rst"]]
      = (0, [Rule.lit "readme",
             WithOptionalExt "readme" ["html", "txt", "rst"]]) := by
    rw [get_score, hm2, get_score]
    rfl
  refine ⟨by decide, by decide, by decide, ?_, ?_⟩
  · rw [hm1, hg2]
  · by_cases hw : w = 0
    · subst hw
      simp [compute_from_rules, hg1, hg2]
    · simp [compute_from_rules, hg1, hg2, hw]

/-- C10: when a OneOf matches, the winning possibility itself is added
to the consumed set, so any rule equal to it (in particular a literal
string rule equal to the matched possibility string) can never match
again: it fails against any state containing it, and it remains
consumed through any continuation of the run. -/
theorem oneof_possibility_consumed_blocks (name : String)
    (ps used out : List Rule)
    (h : match_filename name (.oneOf ps) used = (true, out)) :
    ∃ p ∈ ps, p ∈ out ∧
      (∀ (n2 : String) (u2 : List Rule), p ∈ u2 →
        match_filename n2 p u2 = (false, u2)) ∧
      ∀ (cands : List (String × Bool)) (specs : List (Rule × Int)),
        p ∈ (compute_from_rules cands specs out).2.2 := by
  have h1 : (match_filename name (.oneOf ps) used).1 = true := by rw [h]
  have hnot : Rule.oneOf ps ∉ used :=
    match_filename_true_not_mem name (.oneOf ps) used h1
  have hM : match_filename name (.oneOf ps) used
      = matchPossibilities name ps (.oneOf ps) used := by
    rw [match_filename.eq_def]
    have hc' : ¬(used.contains (Rule.oneOf ps) = true) :=
      fun hcc => hnot ((contains_iff_mem _ _).mp hcc)
    rw [if_neg hc']
  rw [hM] at h h1
  obtain ⟨_, p, hp, hpmem⟩ :=
    matchPossibilities_true_mem name ps (.oneOf ps) used h1
  rw [h] at hpmem
  refine ⟨p, hp, hpmem,
    fun n2 u2 hpu => match_filename_of_mem n2 p u2 hpu, ?_⟩
  intro cands specs
  have heq := (compute_from_rules_eq_run cands specs out).2
  obtain ⟨ext, hext⟩ := run_match_growth cands specs out
  rw [heq, hext]
  exact List.mem_append_left _ hpmem

/-- Witness for C10 at OneOf("test","tests") matched by candidate
"tests" through the possibility string "tests". -/
theorem oneof_possibility_consumed_blocks_witness :
    match_filename "tests" (Rule.oneOf [.lit "test", .lit "tests"]) []
      = (true, [Rule.lit "tests", Rule.oneOf [.lit "test", .lit "tests"]]) ∧
    ∃ p ∈ [Rule.lit "test", Rule.lit "tests"],
      p ∈ [Rule.lit "tests", Rule.oneOf [.lit "test", .lit "tests"]] ∧
      (∀ (n2 : String) (u2 : List Rule), p ∈ u2 →
        match_filename n2 p u2 = (false, u2)) ∧
      ∀ (cands : List (String × Bool)) (specs : List (Rule × Int)),
        p ∈ (compute_from_rules cands specs
          [Rule.lit "tests", Rule.oneOf [.lit "test", .lit "tests"]]).2.2 :=
  ⟨by decide,
   oneof_possibility_consumed_blocks "tests" [.lit "test", .lit "tests"]
     [] _ (by decide)⟩

end Cheesecake
